import Mathlib

/-!
# Character-configurator store: shallow embedding

Embedding of the Zustand store of the r3f character configurator
(`src/store.js`; the variant with `applyLockedAssets`).  JavaScript objects
keyed by strings are modelled as insertion-ordered association lists
(`List (String × β)`); `{...obj, [k]: v}` keeps an existing key in place and
appends a fresh key at the end, which `setKey` reproduces.  `undefined` /
`null` / missing fields are modelled as `none`.  Operations that can throw a
`TypeError` in JavaScript (a failed `Array.find` followed by a property
access) return `Option`, with `none` for the thrown exception.
-/

set_option autoImplicit false

namespace Configurator

/-- A `CustomizationAssets` record.  `lockedGroups` is `none` when the field
is absent (`undefined`), `some l` when present (even empty, which is truthy
in JavaScript). -/
structure Asset where
  id : String
  group : String
  name : String
  lockedGroups : Option (List String)
deriving Repr, DecidableEq

/-- A `CustomizationGroups` record after the loader joined its assets.
`colorPalette` models `expand?.colorPalette?.colors`; `startingAsset` is
`none` when the field is absent or empty (falsy). -/
structure Category where
  id : String
  name : String
  removable : Bool
  startingAsset : Option String
  colorPalette : Option (List String)
  assets : List Asset
deriving Repr, DecidableEq

/-- One entry of the `customization` object: the selected asset (possibly
`null`/`undefined`) and the selected color (`none` when the `color` field is
absent or `undefined`). -/
structure Selection where
  asset : Option Asset
  color : Option String
deriving Repr, DecidableEq

/-- The empty JavaScript object `{}` read as a `Selection`. -/
def Selection.empty : Selection := { asset := none, color := none }

/-- The `customization` store field: category name ↦ selection. -/
abbrev Customization := List (String × Selection)

/-- One entry pushed by `applyLockedAssets`:
`{ name: asset.name, categoryName: lockingAssetCategoryName }`. -/
structure LockEntry where
  name : String
  categoryName : String
deriving Repr, DecidableEq

/-- The `lockedGroups` store field: locked category name ↦ entries. -/
abbrev LockedGroups := List (String × List LockEntry)

/-- A three.js `Color` value: set from a hex number or from a CSS style
string. -/
inductive ColorVal where
  | hex (n : Nat)
  | style (s : String)
deriving Repr, DecidableEq

/-- `k in obj` on a JavaScript object. -/
def hasKey {β : Type} (m : List (String × β)) (k : String) : Bool :=
  m.any (fun p => p.1 == k)

/-- `obj[k]`, `undefined` when absent. -/
def lookupKey {β : Type} (m : List (String × β)) (k : String) : Option β :=
  (m.find? (fun p => p.1 == k)).map (fun p => p.2)

/-- `{...obj, [k]: v}`: replaces the value in place when the key exists,
appends the key at the end otherwise (JavaScript key-order semantics). -/
def setKey {β : Type} (m : List (String × β)) (k : String) (v : β) : List (String × β) :=
  if hasKey m k then m.map (fun p => if p.1 == k then (k, v) else p)
  else m ++ [(k, v)]

/-- `lockedGroups[k].push(e)`, creating `lockedGroups[k] = []` first when the
key is absent. -/
def pushLock (m : LockedGroups) (k : String) (e : LockEntry) : LockedGroups :=
  if hasKey m k then m.map (fun p => if p.1 == k then (p.1, p.2 ++ [e]) else p)
  else m ++ [(k, [e])]

/-- Body of the inner `forEach` of `applyLockedAssets` for one locked group
id `g`: both `categories.find(...)` calls throw (`none`) when no category
matches. -/
def lockStep (categories : List Category) (a : Asset) (m : LockedGroups) (g : String) :
    Option LockedGroups := do
  let lockedCat ← categories.find? (fun c => c.id == g)
  let ownerCat ← categories.find? (fun c => c.id == a.group)
  pure (pushLock m lockedCat.name { name := a.name, categoryName := ownerCat.name })

/-- Contribution of one selection to `applyLockedAssets`: skipped when the
asset is absent or its `lockedGroups` field is absent (falsy). -/
def selLocks (categories : List Category) (sel : Selection) (m : LockedGroups) :
    Option LockedGroups :=
  match sel.asset with
  | none => some m
  | some a =>
    match a.lockedGroups with
    | none => some m
    | some groups => groups.foldlM (lockStep categories a) m

/-- `applyLockedAssets`: recomputes the suppression map from the current
customization, iterating `Object.values(customization)` in key insertion
order.  `none` models the `TypeError` thrown on a dangling category
reference. -/
def applyLockedAssets (categories : List Category) (customization : Customization) :
    Option LockedGroups :=
  customization.foldlM (fun m p => selLocks categories p.2 m) []

/-- The configurator store state (presentational fields `mode`, `pose`,
`download` are omitted: no claim concerns them). -/
structure StoreState where
  categories : List Category
  currentCategory : Option Category
  assets : List Asset
  customization : Customization
  lockedGroups : LockedGroups
  skin : ColorVal
deriving Repr, DecidableEq

/-- `updateSkin` / `three.Color.set`: a string sets the style, `undefined`
falls through every branch of `Color.set` and leaves the color unchanged. -/
def updateSkin (skin : ColorVal) (color : Option String) : ColorVal :=
  match color with
  | none => skin
  | some c => ColorVal.style c

/-- Customization part of `changeAsset`:
`{...state.customization, [category]: {...state.customization[category], asset}}`. -/
def changeAssetCust (cust : Customization) (category : String) (asset : Option Asset) :
    Customization :=
  setKey cust category { (lookupKey cust category).getD Selection.empty with asset := asset }

/-- Customization part of `updateColor` (keyed by the current category's
name). -/
def updateColorCust (cust : Customization) (current : String) (color : String) :
    Customization :=
  setKey cust current { (lookupKey cust current).getD Selection.empty with color := some color }

/-- `updateColor`: writes the color under `state.currentCategory.name` and
updates the skin when that name is `"Head"`; reading `.name` of a `null`
current category throws (`none`). -/
def updateColor (s : StoreState) (color : String) : Option StoreState :=
  match s.currentCategory with
  | none => none
  | some cat =>
    some { s with
      customization := updateColorCust s.customization cat.name color,
      skin := if cat.name == "Head" then updateSkin s.skin (some color) else s.skin }

/-- `setCurrentCategory`. -/
def setCurrentCategory (s : StoreState) (c : Category) : StoreState :=
  { s with currentCategory := some c }

/-- The spec's `setColor(categoryId, color)`: select the category, then run
`updateColor` (the code reads the category from `currentCategory`). -/
def setColor (s : StoreState) (c : Category) (color : String) : Option StoreState :=
  updateColor (setCurrentCategory s c) color

/-- `changeAsset`: update the customization, then recompute the suppression
map (`none` when `applyLockedAssets` throws). -/
def changeAsset (s : StoreState) (category : String) (asset : Option Asset) :
    Option StoreState :=
  let cust := changeAssetCust s.customization category asset
  (applyLockedAssets s.categories cust).map
    (fun lg => { s with customization := cust, lockedGroups := lg })

/-- The loader's join: `category.assets = assets.filter(a => a.group === category.id)`. -/
def joinAssets (categories : List Category) (assets : List Asset) : List Category :=
  categories.map (fun c => { c with assets := assets.filter (fun a => a.group == c.id) })

/-- Initial selection built by `fetchCategories` for one joined category:
`color = expand?.colorPalette?.colors?.[0] || ""`, and the starting asset
looked up among the category's own assets when `startingAsset` is truthy. -/
def initSelection (c : Category) : Selection :=
  { color := some (((c.colorPalette.getD []).head?).getD ""),
    asset := match c.startingAsset with
             | some sid => c.assets.find? (fun a => a.id == sid)
             | none => none }

/-- The `customization` object built by `fetchCategories`. -/
def initCustomization (categories : List Category) : Customization :=
  categories.foldl (fun cust c => setKey cust c.name (initSelection c)) []

/-- `fetchCategories` after the two fetches returned `rawCategories` and
`assets`: join, initialize, store, then `applyLockedAssets`. -/
def fetchCategories (rawCategories : List Category) (assets : List Asset) (s : StoreState) :
    Option StoreState :=
  let categories := joinAssets rawCategories assets
  let customization := initCustomization categories
  (applyLockedAssets categories customization).map (fun lg =>
    { s with categories := categories, currentCategory := categories.head?,
             assets := assets, customization := customization, lockedGroups := lg })

/-- The three `randInt` draws `randomize` makes for one category: the asset
index, the removable draw, and the palette index (`randInt(0, n-1)` returns
`0` when the list is empty, and the palette draw only happens when the
palette exists, but the results below hold for arbitrary drawn values). -/
structure Draws where
  assetIdx : Nat
  removeIdx : Nat
  colorIdx : Nat
deriving Repr, DecidableEq

/-- Per-category body of `randomize`: out-of-range indexing yields
`undefined` (`none`), exactly as in JavaScript. -/
def randomizeSelection (c : Category) (d : Draws) : Selection :=
  let randomAsset := c.assets[d.assetIdx]?
  let randomAsset := if c.removable && (d.removeIdx == 0) then none else randomAsset
  let randomColor := match c.colorPalette with
    | none => none
    | some colors => colors[d.colorIdx]?
  { asset := randomAsset, color := randomColor }

/-- One iteration of the `forEach` loop of `randomize`: store the drawn
selection under the category's name and update the skin when the category is
named `"Head"`. -/
def randomizeStep (dr : Nat → Draws) (p : Customization × ColorVal)
    (ic : Nat × Category) : Customization × ColorVal :=
  let sel := randomizeSelection ic.2 (dr ic.1)
  ( setKey p.1 ic.2.name sel,
    if ic.2.name == "Head" then updateSkin p.2 sel.color else p.2 )

/-- The `forEach` loop of `randomize`: builds the fresh `customization`
object and threads the skin updates (the skin is set whenever the `"Head"`
category is processed, before the loop finishes). -/
def randomizeLoop (categories : List Category) (skin : ColorVal) (dr : Nat → Draws) :
    Customization × ColorVal :=
  categories.enum.foldl (randomizeStep dr) ([], skin)

/-- `randomize` with the draw triples given per category position: rebuilds
`customization` from scratch, updates the skin whenever the `"Head"` category
is processed, then recomputes the suppression map. -/
def randomize (s : StoreState) (dr : Nat → Draws) : Option StoreState :=
  let res := randomizeLoop s.categories s.skin dr
  (applyLockedAssets s.categories res.1).map (fun lg =>
    { s with customization := res.1, skin := res.2, lockedGroups := lg })

/-- The mutating operations claim C6 quantifies over. -/
inductive StoreOp where
  | opSetAsset (category : String) (asset : Option Asset)
  | opSetColor (category : Category) (color : String)

/-- Run one operation. -/
def runOp (s : StoreState) : StoreOp → Option StoreState
  | .opSetAsset cat a => changeAsset s cat a
  | .opSetColor c v => setColor s c v

/-- Run a sequence of operations, propagating failure. -/
def runOps (s : StoreState) (ops : List StoreOp) : Option StoreState :=
  ops.foldlM runOp s

/-- An operation "on categories of the loaded Catalog". -/
def ValidOp (categories : List Category) : StoreOp → Prop
  | .opSetAsset cat _ => cat ∈ categories.map (fun c => c.name)
  | .opSetColor c _ => c ∈ categories

/-! ## Characterization of the suppression map

`lockEntriesFor` spells out, directly from the loop structure of
`applyLockedAssets`, which entries end up under a given locked-category name:
one entry per (selection, locked-group-id) pair, in iteration order, with no
deduplication.  The theorems below prove that on success `applyLockedAssets`
realizes exactly this list for every key. -/

/-- `lockedGroups[n]` read as a list, `[]` when the key is absent. -/
def lookupLG (m : LockedGroups) (n : String) : List LockEntry :=
  (lookupKey m n).getD []

/-- Keys of a JavaScript object, in order. -/
def keysOf {β : Type} (m : List (String × β)) : List String :=
  m.map (fun p => p.1)

/-- Entries contributed under key `n` by one asset `a` with locked group ids
`groups` (empty on a dangling reference — the failing run contributes
nothing because it throws instead). -/
def groupEntries (categories : List Category) (a : Asset) (groups : List String)
    (n : String) : List LockEntry :=
  groups.filterMap (fun g =>
    match categories.find? (fun c => c.id == g),
          categories.find? (fun c => c.id == a.group) with
    | some lc, some oc =>
        if lc.name = n then some { name := a.name, categoryName := oc.name } else none
    | _, _ => none)

/-- Entries contributed under key `n` by one selection. -/
def selEntries (categories : List Category) (sel : Selection) (n : String) :
    List LockEntry :=
  match sel.asset with
  | none => []
  | some a =>
    match a.lockedGroups with
    | none => []
    | some groups => groupEntries categories a groups n

/-- All entries recorded under key `n` over the whole customization, in
iteration order. -/
def lockEntriesFor (categories : List Category) (cust : Customization) (n : String) :
    List LockEntry :=
  (cust.map (fun p => selEntries categories p.2 n)).flatten

/-- A selection on which `applyLockedAssets` throws: its asset has a
`lockedGroups` list containing a group id with no matching category, or the
asset's own group has no matching category. -/
def SelFail (categories : List Category) (sel : Selection) : Prop :=
  ∃ a, sel.asset = some a ∧ ∃ L, a.lockedGroups = some L ∧ ∃ g ∈ L,
    (categories.find? (fun c => c.id == g) = none ∨
     categories.find? (fun c => c.id == a.group) = none)

/-! ### Association-list lemmas -/

theorem hasKey_iff_mem {β : Type} (m : List (String × β)) (n : String) :
    hasKey m n = true ↔ n ∈ keysOf m := by
  simp [hasKey, keysOf, List.any_eq_true]

theorem hasKey_eq_lookup_isSome {β : Type} (m : List (String × β)) (n : String) :
    hasKey m n = (lookupKey m n).isSome := by
  rw [Bool.eq_iff_iff]
  simp [hasKey, lookupKey, List.any_eq_true]

theorem find?_key_eq_none {β : Type} (m : List (String × β)) (k : String)
    (h : ¬ hasKey m k = true) : m.find? (fun p => p.1 == k) = none := by
  rw [List.find?_eq_none]
  intro x hx hbeq
  exact h (by simp only [hasKey, List.any_eq_true]; exact ⟨x, hx, hbeq⟩)

theorem lookupKey_cons_of_pos {β : Type} (p : String × β) (t : List (String × β))
    (n : String) (h : (p.1 == n) = true) : lookupKey (p :: t) n = some p.2 := by
  rw [lookupKey, List.find?_cons, h]
  rfl

theorem lookupKey_cons_of_neg {β : Type} (p : String × β) (t : List (String × β))
    (n : String) (h : ¬ (p.1 == n) = true) : lookupKey (p :: t) n = lookupKey t n := by
  rw [lookupKey, List.find?_cons, (by simpa using h : (p.1 == n) = false)]
  rfl

theorem lookupKey_map_replace {β : Type} (t : List (String × β)) (k n : String) (v : β) :
    lookupKey (t.map (fun p => if p.1 == k then (k, v) else p)) n =
      if n = k then (if hasKey t k then some v else none) else lookupKey t n := by
  induction t with
  | nil => by_cases hn : n = k <;> simp [lookupKey, hasKey, hn]
  | cons p t ih =>
    rw [List.map_cons]
    by_cases hp : (p.1 == k) = true
    · have hpk : p.1 = k := by simpa using hp
      have hh : hasKey (p :: t) k = true := by simp [hasKey, hp]
      rw [if_pos hp]
      by_cases hn : n = k
      · rw [if_pos hn, lookupKey_cons_of_pos _ _ _ (by simp [hn]), hh, if_pos rfl]
      · rw [if_neg hn,
          lookupKey_cons_of_neg _ _ _ (by simpa using fun he : k = n => hn he.symm),
          lookupKey_cons_of_neg _ _ _
            (by simpa using fun he : p.1 = n => hn (hpk.symm.trans he).symm),
          ih, if_neg hn]
    · have hpf : (p.1 == k) = false := by simpa using hp
      rw [if_neg hp]
      by_cases hq : (p.1 == n) = true
      · have hqn : p.1 = n := by simpa using hq
        have hnk : ¬ n = k := fun he => hp (by simp [hqn, he])
        rw [if_neg hnk, lookupKey_cons_of_pos _ _ _ hq, lookupKey_cons_of_pos _ _ _ hq]
      · rw [lookupKey_cons_of_neg _ _ _ hq, ih]
        by_cases hn : n = k
        · rw [if_pos hn, if_pos hn]
          have hhh : hasKey (p :: t) k = hasKey t k := by simp [hasKey, hpf]
          rw [hhh]
        · rw [if_neg hn, if_neg hn, lookupKey_cons_of_neg _ _ _ hq]

theorem lookupKey_setKey {β : Type} (m : List (String × β)) (k n : String) (v : β) :
    lookupKey (setKey m k v) n = if n = k then some v else lookupKey m n := by
  by_cases h : hasKey m k = true
  · rw [setKey, if_pos h, lookupKey_map_replace, h]
    by_cases hn : n = k <;> simp [hn]
  · rw [setKey, if_neg h]
    by_cases hn : n = k
    · rw [if_pos hn, lookupKey, List.find?_append, hn, find?_key_eq_none m k h,
        Option.none_or, List.find?_cons, (by simp : (((k, v) : String × β).1 == k) = true)]
      rfl
    · rw [if_neg hn, lookupKey, List.find?_append, List.find?_cons,
        (by simpa using fun he : k = n => hn he.symm : (((k, v) : String × β).1 == n) = false)]
      simp [lookupKey]

theorem hasKey_setKey_iff {β : Type} (m : List (String × β)) (k n : String) (v : β) :
    hasKey (setKey m k v) n = true ↔ (hasKey m n = true ∨ n = k) := by
  rw [hasKey_eq_lookup_isSome, lookupKey_setKey, hasKey_eq_lookup_isSome]
  by_cases hn : n = k <;> simp [hn]

theorem keysOf_setKey {β : Type} (m : List (String × β)) (k : String) (v : β) :
    keysOf (setKey m k v) = if hasKey m k then keysOf m else keysOf m ++ [k] := by
  by_cases h : hasKey m k = true
  · rw [setKey, if_pos h, if_pos h, keysOf, keysOf, List.map_map]
    apply List.map_congr_left
    intro p hp
    by_cases hpk : (p.1 == k) = true
    · simp only [Function.comp_apply, if_pos hpk]
      exact (by simpa using hpk : p.1 = k).symm
    · have hne : ¬ p.1 = k := by simpa using hpk
      simp [hpk, hne]
  · rw [setKey, if_neg h, if_neg h, keysOf, keysOf, List.map_append]
    rfl

theorem keysOf_nodup_setKey {β : Type} (m : List (String × β)) (k : String) (v : β)
    (h : (keysOf m).Nodup) : (keysOf (setKey m k v)).Nodup := by
  rw [keysOf_setKey]
  by_cases hh : hasKey m k = true
  · rw [if_pos hh]
    exact h
  · rw [if_neg hh]
    have hk : k ∉ keysOf m := fun hm => hh ((hasKey_iff_mem m k).mpr hm)
    rw [List.nodup_append]
    exact ⟨h, List.nodup_singleton k, by simpa using hk⟩

theorem mem_setKey_cases {β : Type} (m : List (String × β)) (k : String) (v : β)
    (p : String × β) (hp : p ∈ setKey m k v) : p ∈ m ∨ p = (k, v) := by
  rw [setKey] at hp
  by_cases h : hasKey m k = true
  · rw [if_pos h] at hp
    rcases List.mem_map.mp hp with ⟨q, hq, he⟩
    by_cases hqk : (q.1 == k) = true
    · right
      rw [← he, if_pos hqk]
    · left
      rw [← he, if_neg hqk]
      exact hq
  · rw [if_neg h] at hp
    rcases List.mem_append.mp hp with h1 | h1
    · left; exact h1
    · right; simpa using h1

theorem mem_setKey_of_ne {β : Type} (m : List (String × β)) (k : String) (v : β)
    (p : String × β) (hp : p ∈ setKey m k v) (hne : ¬ p.1 = k) : p ∈ m := by
  rcases mem_setKey_cases m k v p hp with h | h
  · exact h
  · exact absurd (by rw [h]) hne

theorem mem_setKey_eq {β : Type} (m : List (String × β)) (k : String) (v : β)
    (p : String × β) (hp : p ∈ setKey m k v) (hk : p.1 = k) : p.2 = v := by
  rw [setKey] at hp
  by_cases h : hasKey m k = true
  · rw [if_pos h] at hp
    rcases List.mem_map.mp hp with ⟨q, hq, he⟩
    by_cases hqk : (q.1 == k) = true
    · rw [if_pos hqk] at he
      rw [← he]
    · rw [if_neg hqk] at he
      rw [← he] at hk
      exact absurd hk (by simpa using hqk)
  · rw [if_neg h] at hp
    rcases List.mem_append.mp hp with h1 | h1
    · exact absurd ((hasKey_iff_mem m k).mpr (List.mem_map.mpr ⟨p, h1, hk⟩)) h
    · have hpe : p = (k, v) := by simpa using h1
      rw [hpe]

theorem lookupKey_map_push (t : LockedGroups) (k n : String) (e : LockEntry) :
    lookupKey (t.map (fun p => if p.1 == k then (p.1, p.2 ++ [e]) else p)) n =
      if n = k then (lookupKey t n).map (fun l => l ++ [e]) else lookupKey t n := by
  induction t with
  | nil => by_cases hn : n = k <;> simp [lookupKey, hn]
  | cons p t ih =>
    rw [List.map_cons]
    by_cases hp : (p.1 == k) = true
    · have hpk : p.1 = k := by simpa using hp
      rw [if_pos hp]
      by_cases hn : n = k
      · rw [if_pos hn, lookupKey_cons_of_pos _ _ _ (by simp [hpk, hn]),
          lookupKey_cons_of_pos _ _ _ (by simp [hpk, hn])]
        rfl
      · have hne : ¬ ((p.1 == n) = true) := by
          simpa using fun he : p.1 = n => hn (hpk.symm.trans he).symm
        rw [if_neg hn, lookupKey_cons_of_neg _ _ _ (by simpa using hne),
          lookupKey_cons_of_neg _ _ _ hne, ih, if_neg hn]
    · rw [if_neg hp]
      by_cases hq : (p.1 == n) = true
      · have hqn : p.1 = n := by simpa using hq
        have hnk : ¬ n = k := fun he => hp (by simp [hqn, he])
        rw [if_neg hnk, lookupKey_cons_of_pos _ _ _ hq, lookupKey_cons_of_pos _ _ _ hq]
      · rw [lookupKey_cons_of_neg _ _ _ hq, ih, lookupKey_cons_of_neg _ _ _ hq]

theorem lookupLG_pushLock (m : LockedGroups) (k n : String) (e : LockEntry) :
    lookupLG (pushLock m k e) n = if n = k then lookupLG m n ++ [e] else lookupLG m n := by
  by_cases h : hasKey m k = true
  · rw [pushLock, if_pos h, lookupLG, lookupKey_map_push]
    by_cases hn : n = k
    · rw [if_pos hn, if_pos hn]
      have hs : (lookupKey m n).isSome := by
        rw [hn, ← hasKey_eq_lookup_isSome]
        exact h
      rcases Option.isSome_iff_exists.mp hs with ⟨l, hl⟩
      rw [lookupLG, hl]
      rfl
    · rw [if_neg hn, if_neg hn]
      rfl
  · rw [pushLock, if_neg h]
    have hnone : lookupKey m k = none := by
      have h2 := h
      rw [hasKey_eq_lookup_isSome] at h2
      exact Option.not_isSome_iff_eq_none.mp h2
    by_cases hn : n = k
    · rw [if_pos hn, lookupLG, lookupKey, List.find?_append, hn, find?_key_eq_none m k h,
        Option.none_or, List.find?_cons,
        (by simp : (((k, [e]) : String × List LockEntry).1 == k) = true),
        lookupLG, hnone]
      rfl
    · rw [if_neg hn, lookupLG, lookupKey, List.find?_append, List.find?_cons,
        (by simpa using fun he : k = n => hn he.symm :
          (((k, [e]) : String × List LockEntry).1 == n) = false)]
      simp [lookupLG, lookupKey]

theorem hasKey_pushLock_iff (m : LockedGroups) (k n : String) (e : LockEntry) :
    hasKey (pushLock m k e) n = true ↔ (hasKey m n = true ∨ n = k) := by
  rw [hasKey_iff_mem, hasKey_iff_mem]
  by_cases h : hasKey m k = true
  · rw [pushLock, if_pos h, keysOf, List.map_map]
    have hkeys : List.map (Prod.fst ∘ fun p => if p.1 == k then (p.1, p.2 ++ [e]) else p) m =
        keysOf m := by
      apply List.map_congr_left
      intro p hp
      by_cases hpk : p.1 = k <;> simp [hpk]
    rw [hkeys]
    constructor
    · exact fun hm => Or.inl hm
    · rintro (hm | hm)
      · exact hm
      · rw [hm]
        exact (hasKey_iff_mem m k).mp h
  · rw [pushLock, if_neg h, keysOf, List.map_append]
    simp [keysOf]

/-! ### Fold characterization of `applyLockedAssets` -/

theorem groupEntries_nil (categories : List Category) (a : Asset) (n : String) :
    groupEntries categories a [] n = [] := rfl

theorem groupEntries_cons_some (categories : List Category) (a : Asset) (g : String)
    (gs : List String) (n : String) (lc oc : Category)
    (hg : categories.find? (fun c => c.id == g) = some lc)
    (ho : categories.find? (fun c => c.id == a.group) = some oc) :
    groupEntries categories a (g :: gs) n =
      (if lc.name = n then [LockEntry.mk a.name oc.name] else []) ++
        groupEntries categories a gs n := by
  rw [groupEntries, groupEntries, List.filterMap_cons]
  simp only [hg, ho]
  by_cases hl : lc.name = n
  · simp [hl]
  · simp [hl]

theorem foldlM_lockStep_some (categories : List Category) (a : Asset) :
    ∀ (gs : List String) (m m' : LockedGroups),
      gs.foldlM (lockStep categories a) m = some m' →
      (∀ n, lookupLG m' n = lookupLG m n ++ groupEntries categories a gs n) ∧
      (∀ n, hasKey m' n = true ↔
        (hasKey m n = true ∨ groupEntries categories a gs n ≠ [])) := by
  intro gs
  induction gs with
  | nil =>
    intro m m' h
    have hm : m = m' := by simpa [List.foldlM] using h
    subst hm
    exact ⟨fun n => by simp [groupEntries_nil], fun n => by simp [groupEntries_nil]⟩
  | cons g gs ih =>
    intro m m' h
    rw [List.foldlM_cons] at h
    rcases hstep : lockStep categories a m g with _ | m1
    · rw [hstep] at h
      simp at h
    · rw [hstep] at h
      simp only [Option.bind_eq_bind, Option.some_bind] at h
      rw [lockStep] at hstep
      rcases hg : categories.find? (fun c => c.id == g) with _ | lc
      · rw [hg] at hstep
        simp at hstep
      · rw [hg] at hstep
        rcases ho : categories.find? (fun c => c.id == a.group) with _ | oc
        · rw [ho] at hstep
          simp at hstep
        · rw [ho] at hstep
          simp only [Option.bind_eq_bind, Option.some_bind, Option.pure_def, Option.some_inj] at hstep
          subst hstep
          obtain ⟨ihl, ihk⟩ := ih _ _ h
          constructor
          · intro n
            rw [ihl n, lookupLG_pushLock,
              groupEntries_cons_some categories a g gs n lc oc hg ho]
            by_cases hl : n = lc.name
            · rw [if_pos hl, if_pos hl.symm, List.append_assoc]
            · rw [if_neg hl, if_neg (fun he => hl he.symm), List.nil_append]
          · intro n
            rw [ihk n, hasKey_pushLock_iff,
              groupEntries_cons_some categories a g gs n lc oc hg ho]
            by_cases hl : lc.name = n
            · have hne : ((if lc.name = n then [LockEntry.mk a.name oc.name] else []) ++
                  groupEntries categories a gs n) ≠ [] := by
                simp [hl]
              constructor
              · intro _
                exact Or.inr hne
              · intro _
                exact Or.inl (Or.inr hl.symm)
            · rw [if_neg hl, List.nil_append]
              constructor
              · rintro ((hm | hm) | hm)
                · exact Or.inl hm
                · exact absurd hm.symm hl
                · exact Or.inr hm
              · rintro (hm | hm)
                · exact Or.inl (Or.inl hm)
                · exact Or.inr hm

theorem selLocks_some_char (categories : List Category) (sel : Selection)
    (m m' : LockedGroups) (h : selLocks categories sel m = some m') :
    (∀ n, lookupLG m' n = lookupLG m n ++ selEntries categories sel n) ∧
    (∀ n, hasKey m' n = true ↔
      (hasKey m n = true ∨ selEntries categories sel n ≠ [])) := by
  rw [selLocks] at h
  rcases ha : sel.asset with _ | a
  · simp only [ha] at h
    have hm : m = m' := by simpa using h
    subst hm
    exact ⟨fun n => by simp [selEntries, ha], fun n => by simp [selEntries, ha]⟩
  · simp only [ha] at h
    rcases hlg : a.lockedGroups with _ | groups
    · simp only [hlg] at h
      have hm : m = m' := by simpa using h
      subst hm
      exact ⟨fun n => by simp [selEntries, ha, hlg], fun n => by simp [selEntries, ha, hlg]⟩
    · simp only [hlg] at h
      have hh := foldlM_lockStep_some categories a groups m m' h
      refine ⟨fun n => ?_, fun n => ?_⟩
      · rw [hh.1 n]
        simp [selEntries, ha, hlg]
      · rw [hh.2 n]
        simp [selEntries, ha, hlg]

theorem foldlM_selLocks_some (categories : List Category) :
    ∀ (cust : Customization) (m m' : LockedGroups),
      cust.foldlM (fun m p => selLocks categories p.2 m) m = some m' →
      (∀ n, lookupLG m' n = lookupLG m n ++ lockEntriesFor categories cust n) ∧
      (∀ n, hasKey m' n = true ↔
        (hasKey m n = true ∨ lockEntriesFor categories cust n ≠ [])) := by
  intro cust
  induction cust with
  | nil =>
    intro m m' h
    have hm : m = m' := by simpa [List.foldlM] using h
    subst hm
    exact ⟨fun n => by simp [lockEntriesFor], fun n => by simp [lockEntriesFor]⟩
  | cons p t ih =>
    intro m m' h
    rw [List.foldlM_cons] at h
    rcases hstep : selLocks categories p.2 m with _ | m1
    · rw [hstep] at h
      simp at h
    · rw [hstep] at h
      simp only [Option.bind_eq_bind, Option.some_bind] at h
      have hsel := selLocks_some_char categories p.2 m m1 hstep
      have hrest := ih m1 m' h
      constructor
      · intro n
        rw [hrest.1 n, hsel.1 n, List.append_assoc]
        simp [lockEntriesFor]
      · intro n
        rw [hrest.2 n, hsel.2 n]
        simp only [lockEntriesFor, List.map_cons, List.flatten_cons, ne_eq,
          List.append_eq_nil, not_and_or]
        tauto

theorem applyLockedAssets_some_char (categories : List Category) (cust : Customization)
    (m : LockedGroups) (h : applyLockedAssets categories cust = some m) :
    (∀ n, lookupLG m n = lockEntriesFor categories cust n) ∧
    (∀ n, hasKey m n = true ↔ lockEntriesFor categories cust n ≠ []) := by
  have hh := foldlM_selLocks_some categories cust [] m h
  constructor
  · intro n
    have h1 := hh.1 n
    rwa [show lookupLG ([] : LockedGroups) n = [] from rfl, List.nil_append] at h1
  · intro n
    have h2 := hh.2 n
    rw [show hasKey ([] : LockedGroups) n = false from rfl] at h2
    simpa using h2


/-! ### Failure characterization of `applyLockedAssets` -/

theorem foldlM_lockStep_none (categories : List Category) (a : Asset) :
    ∀ (gs : List String) (m : LockedGroups),
      gs.foldlM (lockStep categories a) m = none ↔
      ∃ g ∈ gs, (categories.find? (fun c => c.id == g) = none ∨
                 categories.find? (fun c => c.id == a.group) = none) := by
  intro gs
  induction gs with
  | nil =>
    intro m
    simp [List.foldlM]
  | cons g gs ih =>
    intro m
    rw [List.foldlM_cons]
    constructor
    · intro h
      rcases hstep : lockStep categories a m g with _ | m1
      · rw [lockStep] at hstep
        rcases hg : categories.find? (fun c => c.id == g) with _ | lc
        · exact ⟨g, List.mem_cons_self g gs, Or.inl hg⟩
        · rw [hg] at hstep
          rcases ho : categories.find? (fun c => c.id == a.group) with _ | oc
          · exact ⟨g, List.mem_cons_self g gs, Or.inr ho⟩
          · rw [ho] at hstep
            simp at hstep
      · rw [hstep] at h
        simp only [Option.bind_eq_bind, Option.some_bind] at h
        obtain ⟨g2, hg2, hd⟩ := (ih m1).mp h
        exact ⟨g2, List.mem_cons_of_mem g hg2, hd⟩
    · rintro ⟨g2, hg2, hd⟩
      rcases List.mem_cons.mp hg2 with he | hmem
      · subst he
        have hnone : lockStep categories a m g2 = none := by
          rw [lockStep]
          rcases hd with hd | hd
          · rw [hd]
            rfl
          · rcases hg : categories.find? (fun c => c.id == g2) with _ | lc
            · rw [hg]
              rfl
            · rw [hg, hd]
              rfl
        rw [hnone]
        rfl
      · rcases hstep : lockStep categories a m g with _ | m1
        · rfl
        · simp only [Option.bind_eq_bind, Option.some_bind]
          exact (ih m1).mpr ⟨g2, hmem, hd⟩

theorem selLocks_none_iff (categories : List Category) (sel : Selection) (m : LockedGroups) :
    selLocks categories sel m = none ↔ SelFail categories sel := by
  rw [selLocks]
  rcases ha : sel.asset with _ | a
  · simp [SelFail, ha]
  · simp only [ha]
    rcases hlg : a.lockedGroups with _ | groups
    · simp [SelFail, ha, hlg]
    · simp only [hlg]
      rw [foldlM_lockStep_none]
      simp [SelFail, ha, hlg]

theorem foldlM_selLocks_none (categories : List Category) :
    ∀ (cust : Customization) (m : LockedGroups),
      cust.foldlM (fun m p => selLocks categories p.2 m) m = none ↔
      ∃ p ∈ cust, SelFail categories p.2 := by
  intro cust
  induction cust with
  | nil =>
    intro m
    simp [List.foldlM]
  | cons q t ih =>
    intro m
    rw [List.foldlM_cons]
    constructor
    · intro h
      rcases hstep : selLocks categories q.2 m with _ | m1
      · exact ⟨q, List.mem_cons_self q t, (selLocks_none_iff categories q.2 m).mp hstep⟩
      · rw [hstep] at h
        simp only [Option.bind_eq_bind, Option.some_bind] at h
        obtain ⟨p, hp, hf⟩ := (ih m1).mp h
        exact ⟨p, List.mem_cons_of_mem q hp, hf⟩
    · rintro ⟨p, hp, hf⟩
      rcases List.mem_cons.mp hp with he | hmem
      · subst he
        rw [(selLocks_none_iff categories p.2 m).mpr hf]
        rfl
      · rcases hstep : selLocks categories q.2 m with _ | m1
        · rfl
        · simp only [Option.bind_eq_bind, Option.some_bind]
          exact (ih m1).mpr ⟨p, hmem, hf⟩

theorem applyLockedAssets_none_iff (categories : List Category) (cust : Customization) :
    applyLockedAssets categories cust = none ↔ ∃ p ∈ cust, SelFail categories p.2 :=
  foldlM_selLocks_none categories cust []

theorem changeAsset_none_iff (s : StoreState) (category : String) (asset : Option Asset) :
    changeAsset s category asset = none ↔
      applyLockedAssets s.categories (changeAssetCust s.customization category asset) = none := by
  rw [changeAsset]
  simp

theorem randomize_none_iff (s : StoreState) (dr : Nat → Draws) :
    randomize s dr = none ↔
      applyLockedAssets s.categories (randomizeLoop s.categories s.skin dr).1 = none := by
  rw [randomize]
  simp

theorem fetchCategories_none_iff (rawCategories : List Category) (assets : List Asset)
    (s : StoreState) :
    fetchCategories rawCategories assets s = none ↔
      applyLockedAssets (joinAssets rawCategories assets)
        (initCustomization (joinAssets rawCategories assets)) = none := by
  rw [fetchCategories]
  simp

/-! ### Idempotence of the `{...obj, [k]: v}` update -/

theorem setKey_idem {β : Type} (m : List (String × β)) (k : String) (v : β) :
    setKey (setKey m k v) k v = setKey m k v := by
  have h2 : hasKey (setKey m k v) k = true := (hasKey_setKey_iff m k k v).mpr (Or.inr rfl)
  conv_lhs => rw [setKey]
  rw [if_pos h2]
  have hfix : ∀ p ∈ setKey m k v, (if p.1 == k then ((k, v) : String × β) else p) = p := by
    intro p hp
    by_cases hpk : (p.1 == k) = true
    · have h1 : p.1 = k := by simpa using hpk
      have h2v : p.2 = v := mem_setKey_eq m k v p hp h1
      rw [if_pos hpk, ← h1, ← h2v]
    · rw [if_neg hpk]
  rw [List.map_congr_left hfix, List.map_id']

theorem changeAssetCust_idem (cust : Customization) (category : String) (asset : Option Asset) :
    changeAssetCust (changeAssetCust cust category asset) category asset =
      changeAssetCust cust category asset := by
  conv_lhs => rw [changeAssetCust, changeAssetCust, lookupKey_setKey, if_pos rfl]
  conv_rhs => rw [changeAssetCust]
  exact setKey_idem cust category _

/-! ### Concrete catalog used by witnesses and counterexamples -/

/-- A palette-less, non-removable `"Head"` category with no assets. -/
def headCat : Category :=
  { id := "cat-head", name := "Head", removable := false, startingAsset := none,
    colorPalette := none, assets := [] }

/-- A hat asset that locks the `"Head"` category. -/
def capAsset : Asset :=
  { id := "asset-cap", group := "cat-hat", name := "Cap",
    lockedGroups := some ["cat-head"] }

/-- A removable `"Hat"` category with a two-color palette and one asset. -/
def hatCat : Category :=
  { id := "cat-hat", name := "Hat", removable := true, startingAsset := none,
    colorPalette := some ["red", "blue"], assets := [capAsset] }

/-- The store right after loading the `[headCat, hatCat]` catalog. -/
def baseState : StoreState :=
  { categories := [headCat, hatCat],
    currentCategory := some headCat,
    assets := [capAsset],
    customization := [("Head", { asset := none, color := some "" }),
                      ("Hat", { asset := none, color := some "red" })],
    lockedGroups := [],
    skin := ColorVal.hex 0xf5c6a5 }

/-- The `"Hat"` selection after `changeAsset("Hat", capAsset)`. -/
def selHatEx : Selection := { asset := some capAsset, color := some "red" }

/-- The customization after selecting the cap. -/
def custLockedEx : Customization :=
  [("Head", { asset := none, color := some "" }), ("Hat", selHatEx)]

/-- The suppression map after selecting the cap. -/
def lgLockedEx : LockedGroups :=
  [("Head", [{ name := "Cap", categoryName := "Hat" }])]

/-- The store after selecting the cap. -/
def lockedStateEx : StoreState :=
  { baseState with customization := custLockedEx, lockedGroups := lgLockedEx }

/-! ## Claims -/

/-- C10: `applyLockedAssets` is partial on dangling lock references — it
throws exactly when some currently stored selection's asset has a
`lockedGroups` list with a group id matching no loaded category, or the
asset's own group id matches no loaded category; every mutating operation
that triggers it (`changeAsset`, `randomize`, `fetchCategories`) fails
exactly when the recomputation does, so it is total only under the
precondition that every referenced group id names a loaded category. -/
theorem applyLockedAssets_dangling_refs (categories : List Category)
    (cust : Customization) :
    (applyLockedAssets categories cust = none ↔ ∃ p ∈ cust, SelFail categories p.2) ∧
    (∀ (s : StoreState) (category : String) (asset : Option Asset),
      changeAsset s category asset = none ↔
        applyLockedAssets s.categories
          (changeAssetCust s.customization category asset) = none) ∧
    (∀ (s : StoreState) (dr : Nat → Draws),
      randomize s dr = none ↔
        applyLockedAssets s.categories (randomizeLoop s.categories s.skin dr).1 = none) ∧
    (∀ (rawCategories : List Category) (assets : List Asset) (s : StoreState),
      fetchCategories rawCategories assets s = none ↔
        applyLockedAssets (joinAssets rawCategories assets)
          (initCustomization (joinAssets rawCategories assets)) = none) :=
  ⟨applyLockedAssets_none_iff categories cust,
   fun s category asset => changeAsset_none_iff s category asset,
   fun s dr => randomize_none_iff s dr,
   fun rawCategories assets s => fetchCategories_none_iff rawCategories assets s⟩

/-- C1: lock soundness — whenever `applyLockedAssets` succeeds on a
customization in which asset `A` (with non-empty `lockedGroups` list `L`) is
selected in its owning category, every id in `L` resolves to a loaded
category whose name is a key of the suppression map, that key's list
contains the entry `{A.name, owning category name}`, and in general every
key's list is exactly the append-in-iteration-order list of entries (one per
locking asset and locked id, no deduplication). -/
theorem lock_soundness
    (categories : List Category) (cust : Customization) (m : LockedGroups)
    (k : String) (sel : Selection) (A : Asset) (L : List String) (C : Category)
    (hm : applyLockedAssets categories cust = some m)
    (hmem : (k, sel) ∈ cust)
    (hsel : sel.asset = some A)
    (hL : A.lockedGroups = some L)
    (hLne : L ≠ [])
    (hC : categories.find? (fun c => c.id == A.group) = some C)
    (hk : k = C.name) :
    (∀ g ∈ L, ∃ lockedCat,
      categories.find? (fun c => c.id == g) = some lockedCat ∧
      hasKey m lockedCat.name = true ∧
      LockEntry.mk A.name C.name ∈ lookupLG m lockedCat.name) ∧
    (∀ n, lookupLG m n = lockEntriesFor categories cust n) := by
  have hchar := applyLockedAssets_some_char categories cust m hm
  refine ⟨fun g hg => ?_, hchar.1⟩
  have hnofail : ¬ SelFail categories sel := by
    intro hf
    have hnone : applyLockedAssets categories cust = none :=
      (applyLockedAssets_none_iff categories cust).mpr ⟨(k, sel), hmem, hf⟩
    rw [hm] at hnone
    cases hnone
  rcases hfind : categories.find? (fun c => c.id == g) with _ | lockedCat
  · exact absurd ⟨A, hsel, L, hL, g, hg, Or.inl hfind⟩ hnofail
  · refine ⟨lockedCat, hfind, ?_, ?_⟩
    · have hentry : LockEntry.mk A.name C.name ∈
          lockEntriesFor categories cust lockedCat.name := by
        rw [lockEntriesFor]
        refine List.mem_flatten.mpr ⟨selEntries categories sel lockedCat.name,
          List.mem_map.mpr ⟨(k, sel), hmem, rfl⟩, ?_⟩
        simp only [selEntries, hsel, hL, groupEntries]
        exact List.mem_filterMap.mpr ⟨g, hg, by simp [hfind, hC]⟩
      have hne : lockEntriesFor categories cust lockedCat.name ≠ [] := by
        intro hnil
        rw [hnil] at hentry
        cases hentry
      exact (hchar.2 lockedCat.name).mpr hne
    · have hentry : LockEntry.mk A.name C.name ∈
          lockEntriesFor categories cust lockedCat.name := by
        rw [lockEntriesFor]
        refine List.mem_flatten.mpr ⟨selEntries categories sel lockedCat.name,
          List.mem_map.mpr ⟨(k, sel), hmem, rfl⟩, ?_⟩
        simp only [selEntries, hsel, hL, groupEntries]
        exact List.mem_filterMap.mpr ⟨g, hg, by simp [hfind, hC]⟩
      rw [hchar.1 lockedCat.name]
      exact hentry

/-- C1 witness: the two-category catalog with the cap selected, evaluated
concretely. -/
theorem lock_soundness_witness :
    (∃ lockedCat,
      List.find? (fun c => c.id == "cat-head") [headCat, hatCat] = some lockedCat ∧
      hasKey lgLockedEx lockedCat.name = true ∧
      LockEntry.mk "Cap" "Hat" ∈ lookupLG lgLockedEx lockedCat.name) ∧
    lookupLG lgLockedEx "Head" = lockEntriesFor [headCat, hatCat] custLockedEx "Head" := by
  have h := lock_soundness [headCat, hatCat] custLockedEx lgLockedEx
    "Hat" selHatEx capAsset ["cat-head"] hatCat
    (by decide) (by decide) (by decide) (by decide) (by decide) (by decide) (by decide)
  exact ⟨h.1 "cat-head" (by decide), h.2 "Head"⟩

/-- C9: `setAsset` is idempotent — running `changeAsset` twice with the same
category and asset yields the same store (same customization and same
suppression map) as running it once, from any state. -/
theorem changeAsset_idem (s : StoreState) (category : String) (asset : Option Asset) :
    (changeAsset s category asset).bind (fun t => changeAsset t category asset) =
      changeAsset s category asset := by
  rcases h : changeAsset s category asset with _ | s1
  · rfl
  · rw [Option.some_bind]
    rw [changeAsset] at h
    rcases Option.map_eq_some'.mp h with ⟨lg, hap, hs1⟩
    subst hs1
    rw [changeAsset]
    simp only [changeAssetCust_idem, hap, Option.map_some']

/-- C3: the failing input evaluated — `"Bogus"` names no loaded category,
yet `changeAsset` raises no error: it silently returns a state whose
customization gained a stray `"Bogus"` entry holding the asset and no color,
where the spec demands a loudly surfaced `InvalidCategory` failure. -/
theorem setAsset_unknown_category_silent :
    ("Bogus" ∈ baseState.categories.map (fun c => c.name) → False) ∧
    changeAsset baseState "Bogus" none =
      some { baseState with
        customization :=
          baseState.customization ++ [("Bogus", { asset := none, color := none })] } := by
  decide

/-- What `changeAsset` actually does in place of validation.  For a known
category id it replaces the asset and preserves the color (the stored
selection becomes the old one with only `asset` replaced); for an unknown id
it silently appends a fresh entry holding the asset and no color; entries of
other categories are untouched. -/
theorem changeAsset_no_validation (cust : Customization) (category : String)
    (asset : Option Asset) :
    (∀ sel, lookupKey cust category = some sel →
      lookupKey (changeAssetCust cust category asset) category =
        some { sel with asset := asset }) ∧
    (lookupKey cust category = none →
      changeAssetCust cust category asset =
        cust ++ [(category, { asset := asset, color := none })]) ∧
    (∀ n, ¬ n = category →
      lookupKey (changeAssetCust cust category asset) n = lookupKey cust n) := by
  refine ⟨fun sel hsel => ?_, fun hnone => ?_, fun n hn => ?_⟩
  · rw [changeAssetCust, lookupKey_setKey, if_pos rfl, hsel]
    rfl
  · have hk : ¬ hasKey cust category = true := by
      rw [hasKey_eq_lookup_isSome, hnone]
      simp
    rw [changeAssetCust, setKey, if_neg hk, hnone]
    rfl
  · rw [changeAssetCust, lookupKey_setKey, if_neg hn]

/-- C2: lock reversibility — if category `X` is suppressed solely by asset
`A` selected in category `Cname` (no other stored selection contributes a
lock on `X`), then selecting `A` and deselecting it again leaves `X` with no
key at all in the suppression map, and `X`'s own selection (asset and color)
is exactly what it was before `A` was selected. -/
theorem lock_reversibility
    (s0 s1 s2 : StoreState) (Cname : String) (A : Asset) (X : Category)
    (hXC : ¬ X.name = Cname)
    (hlock : ∃ g ∈ A.lockedGroups.getD [],
      s0.categories.find? (fun c => c.id == g) = some X)
    (hsole : ∀ p ∈ s0.customization, ¬ p.1 = Cname →
      selEntries s0.categories p.2 X.name = [])
    (h1 : changeAsset s0 Cname (some A) = some s1)
    (h2 : changeAsset s1 Cname none = some s2) :
    hasKey s2.lockedGroups X.name = false ∧
    lookupKey s2.customization X.name = lookupKey s0.customization X.name := by
  rw [changeAsset] at h1 h2
  rcases Option.map_eq_some'.mp h1 with ⟨lg1, hap1, hs1⟩
  rcases Option.map_eq_some'.mp h2 with ⟨lg2, hap2, hs2⟩
  have hcats1 : s1.categories = s0.categories := by rw [← hs1]
  have hcust1 : s1.customization = changeAssetCust s0.customization Cname (some A) := by
    rw [← hs1]
  have hcust2 : s2.customization = changeAssetCust s1.customization Cname none := by
    rw [← hs2]
  have hlg2 : s2.lockedGroups = lg2 := by rw [← hs2]
  constructor
  · have hchar := applyLockedAssets_some_char s1.categories
      (changeAssetCust s1.customization Cname none) lg2 hap2
    have hnil : lockEntriesFor s1.categories
        (changeAssetCust s1.customization Cname none) X.name = [] := by
      rw [lockEntriesFor, List.flatten_eq_nil_iff]
      intro l hl
      rcases List.mem_map.mp hl with ⟨p, hp, he⟩
      rw [← he]
      rw [changeAssetCust] at hp
      by_cases hpk : p.1 = Cname
      · have hv := mem_setKey_eq _ _ _ p hp hpk
        rw [hv]
        simp [selEntries]
      · have hp0 : p ∈ s1.customization := mem_setKey_of_ne _ _ _ p hp hpk
        rw [hcust1, changeAssetCust] at hp0
        have hp00 : p ∈ s0.customization := mem_setKey_of_ne _ _ _ p hp0 hpk
        rw [hcats1]
        exact hsole p hp00 hpk
    have hk := hchar.2 X.name
    rw [hlg2]
    cases hb : hasKey lg2 X.name
    · rfl
    · exact absurd hnil (hk.mp hb)
  · rw [hcust2, hcust1, changeAssetCust, changeAssetCust, lookupKey_setKey, if_neg hXC,
      lookupKey_setKey, if_neg hXC]

/-- C2 witness: selecting and deselecting the cap on the concrete catalog
returns to the loaded state, with no `"Head"` key in the suppression map. -/
theorem lock_reversibility_witness :
    hasKey baseState.lockedGroups headCat.name = false ∧
    lookupKey baseState.customization headCat.name =
      lookupKey baseState.customization headCat.name :=
  lock_reversibility baseState lockedStateEx baseState "Hat" capAsset headCat
    (by decide) ⟨"cat-head", by decide, by decide⟩ (by decide) (by decide) (by decide)

/-- Three lock-free assets for a removable example category. -/
def triAsset1 : Asset := { id := "t1", group := "cat-tri", name := "T1", lockedGroups := none }

/-- Second example asset. -/
def triAsset2 : Asset := { id := "t2", group := "cat-tri", name := "T2", lockedGroups := none }

/-- Third example asset. -/
def triAsset3 : Asset := { id := "t3", group := "cat-tri", name := "T3", lockedGroups := none }

/-- A removable category with three assets and no palette. -/
def triCat : Category :=
  { id := "cat-tri", name := "Tri", removable := true, startingAsset := none,
    colorPalette := none, assets := [triAsset1, triAsset2, triAsset3] }

/-- C4 counterexample: on a removable category with three assets, exactly one
of the three equally likely values of the extra `randInt(0, n-1)` draw makes
`randomize` select none — the probability is 1/3, not 1/2 (2·1 ≠ 3). -/
theorem randomize_removable_not_half :
    triCat.removable = true ∧ triCat.assets.length = 3 ∧
    2 * ((Finset.range 3).filter (fun r =>
      (randomizeSelection triCat { assetIdx := 1, removeIdx := r, colorIdx := 0 }).asset
        = none)).card ≠ 3 := by decide

/-- C4 amended: on a removable category the extra draw is
`randInt(0, assets.length - 1)`, not a binary coin: the chosen asset is
overridden to none exactly when that draw is `0`, so exactly 1 of the
`assets.length` equally likely draw values yields none (probability `1/n`,
which is 1/2 only when the category has exactly two assets). -/
theorem randomize_removable_amended (c : Category) (d : Draws)
    (hrem : c.removable = true) (hidx : d.assetIdx < c.assets.length) :
    ((randomizeSelection c d).asset = none ↔ d.removeIdx = 0) ∧
    ((Finset.range c.assets.length).filter (fun r =>
      (randomizeSelection c { d with removeIdx := r }).asset = none)).card = 1 := by
  have key : ∀ r : Nat,
      ((randomizeSelection c
        { assetIdx := d.assetIdx, removeIdx := r, colorIdx := d.colorIdx }).asset = none
        ↔ r = 0) := by
    intro r
    simp only [randomizeSelection, hrem, Bool.true_and]
    by_cases h0 : r = 0
    · simp [h0]
    · simp [h0, List.getElem?_eq_getElem hidx]
  constructor
  · exact key d.removeIdx
  · have hfe : (Finset.range c.assets.length).filter (fun r =>
        (randomizeSelection c { d with removeIdx := r }).asset = none) =
        (Finset.range c.assets.length).filter (fun r => r = 0) := by
      apply Finset.filter_congr
      intro r _
      exact key r
    rw [hfe, Finset.filter_eq',
      if_pos (Finset.mem_range.mpr (Nat.lt_of_le_of_lt (Nat.zero_le _) hidx))]
    exact Finset.card_singleton 0

/-- C4 witness: the amended statement evaluated on the three-asset removable
category with the extra draw equal to 1. -/
theorem randomize_removable_amended_witness :
    ((randomizeSelection triCat { assetIdx := 1, removeIdx := 1, colorIdx := 0 }).asset = none
      ↔ (1 : Nat) = 0) ∧
    ((Finset.range triCat.assets.length).filter (fun r =>
      (randomizeSelection triCat { assetIdx := 1, removeIdx := r, colorIdx := 0 }).asset
        = none)).card = 1 :=
  randomize_removable_amended triCat { assetIdx := 1, removeIdx := 1, colorIdx := 0 }
    (by decide) (by decide)

/-- C5 counterexample: for the palette-less `"Head"` category, `randomize`
stores an `undefined` color (`none`) while initialization stores the empty
string (`some ""`); the two values are different, so the randomized color
does not match the empty color initialization assigns. -/
theorem randomize_color_not_matching_init :
    (randomizeSelection headCat { assetIdx := 0, removeIdx := 0, colorIdx := 0 }).color
      = none ∧
    (initSelection headCat).color = some "" ∧
    ¬ (randomizeSelection headCat { assetIdx := 0, removeIdx := 0, colorIdx := 0 }).color
      = (initSelection headCat).color := by decide

/-- C5 amended: after `randomize` the category's color is the palette entry
at the drawn index when the category has a palette (the index being the
uniform `randInt(0, palette.length - 1)` draw, so the color is uniform over a
non-empty palette); when the category has no palette the stored color is
`undefined` (`none`) — falsy like the loader's empty color, but not the
empty string `""` that initialization assigns to palette-less categories. -/
theorem randomize_color_amended (c : Category) (d : Draws) :
    (∀ colors, c.colorPalette = some colors →
      (randomizeSelection c d).color = colors[d.colorIdx]?) ∧
    (c.colorPalette = none → (randomizeSelection c d).color = none) ∧
    (c.colorPalette = none → (initSelection c).color = some "") := by
  refine ⟨fun colors hc => ?_, fun hc => ?_, fun hc => ?_⟩
  · simp [randomizeSelection, hc]
  · simp [randomizeSelection, hc]
  · simp [initSelection, hc]

/-- The store after `setColor("Head", "#112233")` on the loaded example. -/
def headColoredEx : StoreState :=
  { baseState with
    currentCategory := some headCat,
    customization := [("Head", { asset := none, color := some "#112233" }),
                      ("Hat", { asset := none, color := some "red" })],
    skin := ColorVal.style "#112233" }

/-- A single-equation unfolding of `updateColor` when a current category is
set. -/
theorem updateColor_eq_of_current (s : StoreState) (c : Category) (v : String)
    (hc : s.currentCategory = some c) :
    updateColor s v = some { s with
      customization := updateColorCust s.customization c.name v,
      skin := if c.name == "Head" then updateSkin s.skin (some v) else s.skin } := by
  rw [updateColor, hc]

/-- C7: skin-material frame condition — `setColor(C, v)` leaves the skin
unchanged unless `C` is the category named `"Head"`, in which case the skin
becomes the style color `v`; and the category's own stored selection gets
color `v` (asset preserved).  In particular `setColor("Head", "#112233")`
updates both the Head entry and the skin to `"#112233"`. -/
theorem setColor_skin_frame (s : StoreState) (c : Category) (v : String) (s2 : StoreState)
    (h : setColor s c v = some s2) :
    (¬ c.name = "Head" → s2.skin = s.skin) ∧
    (c.name = "Head" → s2.skin = ColorVal.style v) ∧
    lookupKey s2.customization c.name =
      some { (lookupKey s.customization c.name).getD Selection.empty with
             color := some v } := by
  rw [setColor, setCurrentCategory, updateColor_eq_of_current _ c v rfl] at h
  injection h with h2
  subst h2
  refine ⟨fun hne => ?_, fun he => ?_, ?_⟩
  · show (if (c.name == "Head") = true then updateSkin s.skin (some v) else s.skin) = s.skin
    rw [if_neg (by simpa using hne)]
  · show (if (c.name == "Head") = true then updateSkin s.skin (some v) else s.skin) =
      ColorVal.style v
    rw [if_pos (by simpa using he)]
    rfl
  · show lookupKey (updateColorCust s.customization c.name v) c.name = _
    rw [updateColorCust, lookupKey_setKey, if_pos rfl]

/-- C7 witness: `setColor("Head", "#112233")` on the loaded example updates
the skin and the Head entry. -/
theorem setColor_skin_frame_witness :
    (¬ headCat.name = "Head" → headColoredEx.skin = baseState.skin) ∧
    (headCat.name = "Head" → headColoredEx.skin = ColorVal.style "#112233") ∧
    lookupKey headColoredEx.customization headCat.name =
      some { (lookupKey baseState.customization headCat.name).getD Selection.empty with
             color := some "#112233" } :=
  setColor_skin_frame baseState headCat "#112233" headColoredEx (by decide)

/-! ### Support for the key-set invariant (C6) and randomize totality (C8) -/

theorem hasKey_initCustomization_fold (categories : List Category) :
    ∀ (acc : Customization) (n : String),
      hasKey (categories.foldl (fun cu c => setKey cu c.name (initSelection c)) acc) n
          = true ↔
        (hasKey acc n = true ∨ n ∈ categories.map (fun c => c.name)) := by
  induction categories with
  | nil =>
    intro acc n
    simp
  | cons c cs ih =>
    intro acc n
    rw [List.foldl_cons, ih, hasKey_setKey_iff]
    simp only [List.map_cons, List.mem_cons]
    tauto

theorem nodup_initCustomization_fold (categories : List Category) :
    ∀ acc : Customization, (keysOf acc).Nodup →
      (keysOf (categories.foldl
        (fun cu c => setKey cu c.name (initSelection c)) acc)).Nodup := by
  induction categories with
  | nil =>
    intro acc h
    exact h
  | cons c cs ih =>
    intro acc h
    rw [List.foldl_cons]
    exact ih _ (keysOf_nodup_setKey _ _ _ h)

theorem initCustomization_keys (categories : List Category) :
    (∀ n, hasKey (initCustomization categories) n = true ↔
      n ∈ categories.map (fun c => c.name)) ∧
    (keysOf (initCustomization categories)).Nodup := by
  constructor
  · intro n
    rw [initCustomization, hasKey_initCustomization_fold]
    simp [hasKey]
  · rw [initCustomization]
    exact nodup_initCustomization_fold categories [] (by simp [keysOf])

theorem runOp_preserves (s : StoreState) (op : StoreOp) (s1 : StoreState)
    (h : runOp s op = some s1) (hv : ValidOp s.categories op)
    (hk : ∀ n, hasKey s.customization n = true ↔
      n ∈ s.categories.map (fun c => c.name))
    (hnd : (keysOf s.customization).Nodup) :
    s1.categories = s.categories ∧
    (∀ n, hasKey s1.customization n = true ↔
      n ∈ s.categories.map (fun c => c.name)) ∧
    (keysOf s1.customization).Nodup := by
  cases op with
  | opSetAsset cat a =>
    simp only [runOp] at h
    rw [changeAsset] at h
    rcases Option.map_eq_some'.mp h with ⟨lg, hap, hs⟩
    subst hs
    refine ⟨rfl, fun n => ?_, ?_⟩
    · show hasKey (changeAssetCust s.customization cat a) n = true ↔ _
      rw [changeAssetCust, hasKey_setKey_iff]
      constructor
      · rintro (hm | hm)
        · exact (hk n).mp hm
        · rw [hm]
          exact hv
      · intro hm
        exact Or.inl ((hk n).mpr hm)
    · show (keysOf (changeAssetCust s.customization cat a)).Nodup
      rw [changeAssetCust]
      exact keysOf_nodup_setKey _ _ _ hnd
  | opSetColor c v =>
    simp only [runOp] at h
    rw [setColor, setCurrentCategory, updateColor_eq_of_current _ c v rfl] at h
    injection h with h2
    subst h2
    have hv2 : c.name ∈ s.categories.map (fun cc => cc.name) :=
      List.mem_map.mpr ⟨c, hv, rfl⟩
    refine ⟨rfl, fun n => ?_, ?_⟩
    · show hasKey (updateColorCust s.customization c.name v) n = true ↔ _
      rw [updateColorCust, hasKey_setKey_iff]
      constructor
      · rintro (hm | hm)
        · exact (hk n).mp hm
        · rw [hm]
          exact hv2
      · intro hm
        exact Or.inl ((hk n).mpr hm)
    · show (keysOf (updateColorCust s.customization c.name v)).Nodup
      rw [updateColorCust]
      exact keysOf_nodup_setKey _ _ _ hnd

theorem runOps_preserves (cats : List Category) :
    ∀ (ops : List StoreOp) (s s2 : StoreState),
      s.categories = cats →
      runOps s ops = some s2 →
      (∀ op ∈ ops, ValidOp cats op) →
      (∀ n, hasKey s.customization n = true ↔ n ∈ cats.map (fun c => c.name)) →
      (keysOf s.customization).Nodup →
      s2.categories = cats ∧
      (∀ n, hasKey s2.customization n = true ↔ n ∈ cats.map (fun c => c.name)) ∧
      (keysOf s2.customization).Nodup := by
  intro ops
  induction ops with
  | nil =>
    intro s s2 hc h hv hk hnd
    have hs : s = s2 := by simpa [runOps, List.foldlM] using h
    subst hs
    exact ⟨hc, hk, hnd⟩
  | cons op ops ih =>
    intro s s2 hc h hv hk hnd
    rw [runOps, List.foldlM_cons] at h
    rcases hstep : runOp s op with _ | s1
    · rw [hstep] at h
      simp at h
    · rw [hstep] at h
      simp only [Option.bind_eq_bind, Option.some_bind] at h
      have h1 := runOp_preserves s op s1 hstep
        (by rw [hc]; exact hv op (List.mem_cons_self op ops))
        (by rw [hc]; exact hk) (by exact hnd)
      exact ih s1 s2 (h1.1.trans hc) h
        (fun o ho => hv o (List.mem_cons_of_mem op ho))
        (by rw [← hc]; exact h1.2.1) h1.2.2

/-- C6: key-set invariant — starting from the state built by the initial
load, any sequence of `setAsset`/`setColor` operations on categories of the
loaded catalog leaves the customization with exactly the loaded category
names as keys: a name is a key iff it names a loaded category, and the keys
are pairwise distinct (no entries appear or vanish). -/
theorem customization_keys_invariant
    (rawCategories : List Category) (assets : List Asset) (sInit s0 s2 : StoreState)
    (ops : List StoreOp)
    (hfetch : fetchCategories rawCategories assets sInit = some s0)
    (hops : ∀ op ∈ ops, ValidOp s0.categories op)
    (hrun : runOps s0 ops = some s2) :
    (∀ n, hasKey s2.customization n = true ↔
      n ∈ s0.categories.map (fun c => c.name)) ∧
    (keysOf s2.customization).Nodup := by
  rw [fetchCategories] at hfetch
  rcases Option.map_eq_some'.mp hfetch with ⟨lg, hap, hs0⟩
  have hc0 : s0.categories = joinAssets rawCategories assets := by rw [← hs0]
  have hcust0 : s0.customization = initCustomization (joinAssets rawCategories assets) := by
    rw [← hs0]
  have hinit := initCustomization_keys (joinAssets rawCategories assets)
  have hres := runOps_preserves s0.categories ops s0 s2 rfl hrun hops
    (fun n => by rw [hcust0, hc0]; exact hinit.1 n)
    (by rw [hcust0]; exact hinit.2)
  exact ⟨hres.2.1, hres.2.2⟩

/-- The empty store the session starts from. -/
def initialStoreEx : StoreState :=
  { categories := [], currentCategory := none, assets := [],
    customization := [], lockedGroups := [], skin := ColorVal.hex 0xf5c6a5 }

/-- The store after loading, selecting the cap and recoloring the hat. -/
def finalEx : StoreState :=
  { baseState with
    currentCategory := some hatCat,
    customization := [("Head", { asset := none, color := some "" }),
                      ("Hat", { asset := some capAsset, color := some "blue" })],
    lockedGroups := lgLockedEx }

/-- C6 witness: a concrete load followed by a `setAsset` and a `setColor`
keeps exactly the keys `"Head"` and `"Hat"`. -/
theorem customization_keys_invariant_witness :
    (∀ n, hasKey finalEx.customization n = true ↔
      n ∈ baseState.categories.map (fun c => c.name)) ∧
    (keysOf finalEx.customization).Nodup :=
  customization_keys_invariant [headCat, hatCat] [capAsset] initialStoreEx baseState finalEx
    [StoreOp.opSetAsset "Hat" (some capAsset), StoreOp.opSetColor hatCat "blue"]
    (by decide)
    (by
      intro op hop
      rcases List.mem_cons.mp hop with he | hop
      · rw [he]
        show "Hat" ∈ baseState.categories.map (fun c => c.name)
        decide
      · rcases List.mem_cons.mp hop with he | hop
        · rw [he]
          show hatCat ∈ baseState.categories
          decide
        · cases hop)
    (by decide)

theorem randomizeSelection_empty_assets (c : Category) (d : Draws) (h : c.assets = []) :
    (randomizeSelection c d).asset = none := by
  simp [randomizeSelection, h]

theorem randomizeSelection_asset_mem (c : Category) (d : Draws) :
    (randomizeSelection c d).asset = none ∨
    ∃ a, (randomizeSelection c d).asset = some a ∧ a ∈ c.assets := by
  by_cases hr : (c.removable && (d.removeIdx == 0)) = true
  · left
    simp [randomizeSelection, hr]
  · have hr2 : (c.removable && (d.removeIdx == 0)) = false := by simpa using hr
    rcases hg : c.assets[d.assetIdx]? with _ | a
    · left
      simp [randomizeSelection, hr2, hg]
    · right
      exact ⟨a, by simp [randomizeSelection, hr2, hg], List.getElem?_mem hg⟩

theorem randomizeLoop_values (categories : List Category) (skin : ColorVal)
    (dr : Nat → Draws) :
    ∀ p ∈ (randomizeLoop categories skin dr).1,
      p.2.asset = none ∨
        ∃ c ∈ categories, ∃ a, p.2.asset = some a ∧ a ∈ c.assets := by
  rw [randomizeLoop]
  have hgen : ∀ (l : List (Nat × Category)) (acc : Customization × ColorVal),
      (∀ ic ∈ l, ic.2 ∈ categories) →
      (∀ p ∈ acc.1, p.2.asset = none ∨
        ∃ c ∈ categories, ∃ a, p.2.asset = some a ∧ a ∈ c.assets) →
      ∀ p ∈ (l.foldl (randomizeStep dr) acc).1,
        p.2.asset = none ∨
          ∃ c ∈ categories, ∃ a, p.2.asset = some a ∧ a ∈ c.assets := by
    intro l
    induction l with
    | nil =>
      intro acc _ hacc p hp
      exact hacc p hp
    | cons ic t ih =>
      intro acc hl hacc p hp
      rw [List.foldl_cons] at hp
      refine ih _ (fun x hx => hl x (List.mem_cons_of_mem _ hx)) ?_ p hp
      intro q hq
      have hq2 : q ∈ setKey acc.1 ic.2.name (randomizeSelection ic.2 (dr ic.1)) := hq
      rcases mem_setKey_cases _ _ _ q hq2 with h1 | h1
      · exact hacc q h1
      · rcases randomizeSelection_asset_mem ic.2 (dr ic.1) with hn | ⟨a, ha, hamem⟩
        · left
          rw [h1]
          exact hn
        · right
          exact ⟨ic.2, hl ic (List.mem_cons_self _ _), a, by rw [h1]; exact ha, hamem⟩
  intro p hp
  refine hgen categories.enum ([], skin) ?_ ?_ p hp
  · intro ic hic
    exact List.getElem?_mem (List.mem_enum_iff_getElem?.mp hic)
  · intro q hq
    cases hq

/-- C8: randomize zero-asset totality — a category with an empty asset list
never makes `randomize` index out of bounds: its drawn selection has no asset
(treated as none selected, for every possible draw), and `randomize` on the
whole catalog succeeds (returns a state rather than throwing) whenever every
asset's lock references resolve in the catalog, zero-asset categories
included. -/
theorem randomize_zero_assets_total (s : StoreState) (dr : Nat → Draws)
    (hwf : ∀ c ∈ s.categories, ∀ a ∈ c.assets, ∀ g ∈ a.lockedGroups.getD [],
      (s.categories.find? (fun c2 => c2.id == g)).isSome = true ∧
      (s.categories.find? (fun c2 => c2.id == a.group)).isSome = true) :
    (∀ (c : Category) (d : Draws), c.assets = [] →
      (randomizeSelection c d).asset = none) ∧
    (randomize s dr).isSome = true := by
  refine ⟨fun c d h => randomizeSelection_empty_assets c d h, ?_⟩
  rcases hr : randomize s dr with _ | s1
  · exfalso
    rw [randomize_none_iff, applyLockedAssets_none_iff] at hr
    rcases hr with ⟨p, hp, hf⟩
    have hmem := randomizeLoop_values s.categories s.skin dr p hp
    rcases hf with ⟨a, ha, L, hL, g, hg, hd⟩
    rcases hmem with hnone | ⟨c, hc, a2, ha2, hamem⟩
    · rw [hnone] at ha
      cases ha
    · rw [ha2] at ha
      injection ha with he
      subst he
      have hw := hwf c hc a2 hamem g (by rw [hL]; exact hg)
      rcases hd with hd | hd
      · rw [hd] at hw
        simp at hw
      · rw [hd] at hw
        simp at hw
  · simp

/-- A zero-asset removable category. -/
def bareCat : Category :=
  { id := "cat-bare", name := "Bare", removable := true, startingAsset := none,
    colorPalette := none, assets := [] }

/-- The loaded example extended with a zero-asset category. -/
def withBareEx : StoreState :=
  { baseState with
    categories := [headCat, hatCat, bareCat],
    customization := baseState.customization ++ [("Bare", { asset := none, color := some "" })] }

/-- C8 witness: `randomize` succeeds on a catalog containing a zero-asset
category, and that category's drawn selection has no asset. -/
theorem randomize_zero_assets_total_witness :
    (∀ (c : Category) (d : Draws), c.assets = [] →
      (randomizeSelection c d).asset = none) ∧
    (randomize withBareEx (fun _ => { assetIdx := 0, removeIdx := 1, colorIdx := 0 })).isSome
      = true :=
  randomize_zero_assets_total withBareEx (fun _ => { assetIdx := 0, removeIdx := 1, colorIdx := 0 })
    (by decide)

end Configurator
